import Mathlib

/-!
# ibooks_notes_exporter: name normalisation and annotation rendering

A shallow embedding of the string-processing core of `main.go`:
`GetLastName`, `isHonorific`, `GetLastNames`, the title truncation of
`getListOfBooks`, `styleToColor` and the per-annotation output of
`exportNotesAndHighlights`, together with the Go standard-library functions
they call (`strings.Fields`, `strings.Split`, `strings.Join`,
`strings.TrimSuffix`, `strings.Replace`, `unicode.IsUpper`, `unicode.IsSpace`,
UTF-8 decoding as done by `for range` over a string).

Go strings are byte sequences; they are embedded as lists of byte values.
A run-time panic (index out of range) is embedded as `none`.
-/

namespace IBooksNotesExporter

/-! ## Go strings -/

/-- A Go string: an immutable sequence of bytes, each entry a byte value `0..255`. -/
abbrev GoString := List Nat

/-- UTF-8 encoding of one code point, as the Go compiler stores the runes of a
string literal and as SQLite hands over text. -/
def encodeRune (c : Nat) : GoString :=
  if c < 0x80 then [c]
  else if c < 0x800 then [0xC0 + c / 64, 0x80 + c % 64]
  else if c < 0x10000 then [0xE0 + c / 4096, 0x80 + c / 64 % 64, 0x80 + c % 64]
  else [0xF0 + c / 262144, 0x80 + c / 4096 % 64, 0x80 + c / 64 % 64, 0x80 + c % 64]

/-- The Go string holding the UTF-8 bytes of a text. -/
def utf8 (s : String) : GoString :=
  (s.toList.map (fun c => encodeRune c.toNat)).flatten

/-- The rune `utf8.RuneError` (U+FFFD). -/
def RuneError : Nat := 0xFFFD

/-- A UTF-8 continuation byte (`locb <= b <= hicb`). -/
def isCont (b : Nat) : Bool := 0x80 ≤ b && b ≤ 0xBF

/-- The function `utf8.DecodeRuneInString`: the first rune of `s` and its width in bytes.
An empty string gives `(RuneError, 0)`; an invalid or truncated encoding
gives `(RuneError, 1)`. -/
def DecodeRuneInString (s : GoString) : Nat × Nat :=
  match s with
  | [] => (RuneError, 0)
  | s0 :: rest =>
    if s0 < 0x80 then (s0, 1)
    else if 0xC2 ≤ s0 && s0 ≤ 0xDF then
      match rest with
      | s1 :: _ =>
        if isCont s1 then ((s0 % 32) * 64 + s1 % 64, 2) else (RuneError, 1)
      | [] => (RuneError, 1)
    else if 0xE0 ≤ s0 && s0 ≤ 0xEF then
      match rest with
      | s1 :: s2 :: _ =>
        let lo := if s0 = 0xE0 then 0xA0 else 0x80
        let hi := if s0 = 0xED then 0x9F else 0xBF
        if lo ≤ s1 && s1 ≤ hi && isCont s2 then
          ((s0 % 16) * 4096 + (s1 % 64) * 64 + s2 % 64, 3)
        else (RuneError, 1)
      | _ => (RuneError, 1)
    else if 0xF0 ≤ s0 && s0 ≤ 0xF4 then
      match rest with
      | s1 :: s2 :: s3 :: _ =>
        let lo := if s0 = 0xF0 then 0x90 else 0x80
        let hi := if s0 = 0xF4 then 0x8F else 0xBF
        if lo ≤ s1 && s1 ≤ hi && isCont s2 && isCont s3 then
          ((s0 % 8) * 262144 + (s1 % 64) * 4096 + (s2 % 64) * 64 + s3 % 64, 4)
        else (RuneError, 1)
      | _ => (RuneError, 1)
    else (RuneError, 1)

/-- The iteration `for end, rune := range s`: the runes of `s` in order, each
with the bytes it was decoded from.  The counter is the number of bytes still
belonging to the rune decoded last. -/
def runesFrom : Nat → GoString → List (Nat × GoString)
  | _, [] => []
  | k + 1, _ :: bs => runesFrom k bs
  | 0, b :: bs =>
    let d := DecodeRuneInString (b :: bs)
    (d.1, (b :: bs).take d.2) :: runesFrom (d.2 - 1) bs

/-- The runes of a Go string, each with its bytes. -/
def runes (s : GoString) : List (Nat × GoString) := runesFrom 0 s

/-- The function `utf8.RuneCountInString`: the length of a string in characters. -/
def RuneCountInString (s : GoString) : Nat := (runes s).length

/-- The predicate `unicode.IsSpace`: the Latin-1 spaces and the other code points of
the Unicode White_Space property. -/
def IsSpace (r : Nat) : Bool :=
  if r ≤ 0xFF then
    r == 0x09 || r == 0x0A || r == 0x0B || r == 0x0C || r == 0x0D || r == 0x20
      || r == 0x85 || r == 0xA0
  else
    r == 0x1680 || (0x2000 ≤ r && r ≤ 0x200A) || r == 0x2028 || r == 0x2029
      || r == 0x202F || r == 0x205F || r == 0x3000

/-- The predicate `unicode.IsUpper` on a rune `r <= unicode.MaxLatin1`, the only runes
`rune(word[0])` can be for a byte `word[0]`: the upper-case letters of
Latin-1 are `A..Z`, U+00C0..U+00D6 and U+00D8..U+00DE. -/
def IsUpper (r : Nat) : Bool :=
  (0x41 ≤ r && r ≤ 0x5A) || (0xC0 ≤ r && r ≤ 0xD6) || (0xD8 ≤ r && r ≤ 0xDE)

/-! ## The `strings` package -/

/-- The function `strings.HasPrefix`. -/
def HasPrefix (s pre : GoString) : Bool :=
  pre.length ≤ s.length && s.take pre.length == pre

/-- The function `strings.HasSuffix`. -/
def HasSuffix (s suffix : GoString) : Bool :=
  suffix.length ≤ s.length && s.drop (s.length - suffix.length) == suffix

/-- The function `strings.TrimSuffix`: `s` without the trailing `suffix`, or `s` itself
when it does not end in `suffix`. -/
def TrimSuffix (s suffix : GoString) : GoString :=
  if HasSuffix s suffix then s.take (s.length - suffix.length) else s

/-- The function `strings.Index`: the index of the first instance of `substr` in `s`;
`none` stands for the result `-1`. -/
def Index : GoString → GoString → Option Nat
  | [], substr => if substr = [] then some 0 else none
  | c :: cs, substr =>
    if HasPrefix (c :: cs) substr then some 0
    else (Index cs substr).map (· + 1)

/-- The counting loop of `strings.Count` for a non-empty `substr`, run at most
`fuel` times. -/
def countLoop (substr : GoString) : Nat → GoString → Nat
  | 0, _ => 0
  | fuel + 1, s =>
    match Index s substr with
    | none => 0
    | some i => 1 + countLoop substr fuel (s.drop (i + substr.length))

/-- The function `strings.Count`: the number of non-overlapping instances of `substr`
in `s`, and one more than the number of runes of `s` for the empty `substr`. -/
def Count (s substr : GoString) : Nat :=
  if substr = [] then RuneCountInString s + 1
  else countLoop substr s.length s

/-- The loop of `genSplit`: cut at the first instance of `sep`, at most
`n` times; what is left is the last piece. -/
def splitLoop (sep : GoString) : Nat → GoString → List GoString
  | 0, s => [s]
  | n + 1, s =>
    match Index s sep with
    | none => [s]
    | some m => s.take m :: splitLoop sep n (s.drop (m + sep.length))

/-- The function `strings.Split` (`genSplit(s, sep, 0, -1)`): the pieces of `s` between
the instances of `sep`; for the empty `sep` the UTF-8 sequences of `s`. -/
def Split (s sep : GoString) : List GoString :=
  if sep = [] then (runes s).map (·.2)
  else splitLoop sep (min (Count s sep + 1) (s.length + 1) - 1) s

/-- The function `strings.Join`. -/
def Join (elems : List GoString) (sep : GoString) : GoString :=
  match elems with
  | [] => []
  | [e] => e
  | e :: rest => rest.foldl (fun b s => b ++ sep ++ s) e

/-- The loop of `strings.Replace` for a non-empty `old`: `n` times, copy up
to the next instance of `old` and write `new` in its place; then copy the
rest. -/
def replaceLoop (old new : GoString) : Nat → GoString → GoString
  | 0, s => s
  | n + 1, s =>
    match Index s old with
    | none => s
    | some j => s.take j ++ new ++ replaceLoop old new n (s.drop (j + old.length))

/-- The loop of `strings.Replace` for the empty `old`: `new` is written
before the string and after each of its first `n` UTF-8 sequences. -/
def replaceEmptyLoop (new : GoString) : Nat → List (Nat × GoString) → GoString
  | _, [] => []
  | 0, p :: ps => p.2 ++ replaceEmptyLoop new 0 ps
  | n + 1, p :: ps => p.2 ++ new ++ replaceEmptyLoop new n ps

/-- The function `strings.Replace`: `s` with the first `n` non-overlapping instances of
`old` replaced by `new`, all of them when `n < 0`. -/
def Replace (s old new : GoString) (n : Int) : GoString :=
  if old = new ∨ n = 0 then s
  else
    let m := Count s old
    if m = 0 then s
    else
      let k := if n < 0 ∨ (m : Int) < n then m else n.toNat
      if old = [] then new ++ replaceEmptyLoop new (k - 1) (runes s)
      else replaceLoop old new k s

/-- The scan of `strings.FieldsFunc(s, unicode.IsSpace)` over the runes of
`s`: `none` is `start < 0` (between words), `some w` holds the bytes of the
word begun at `start`. -/
def fieldsLoop : List (Nat × GoString) → Option GoString → List GoString
  | [], none => []
  | [], some w => [w]
  | p :: rest, none =>
    if IsSpace p.1 then fieldsLoop rest none else fieldsLoop rest (some p.2)
  | p :: rest, some w =>
    if IsSpace p.1 then w :: fieldsLoop rest none else fieldsLoop rest (some (w ++ p.2))

/-- The function `strings.Fields`: the maximal runs of non-space runes of `s`. -/
def Fields (s : GoString) : List GoString := fieldsLoop (runes s) none

/-! ## `main.go` -/

/-- The function `isHonorific` of `main.go`:
`len(word) <= 3 && unicode.IsUpper(rune(word[0])) &&
 (word[len(word)-1] == '.' || word[len(word)-1] == ',')`,
with Go's left-to-right short-circuit evaluation; indexing the empty word
panics (`none`). -/
def isHonorific (word : GoString) : Option Bool :=
  if word.length ≤ 3 then
    match word[0]? with
    | none => none
    | some w0 =>
      if IsUpper w0 then
        match word[word.length - 1]? with
        | none => none
        | some wl => some (wl == 0x2E || wl == 0x2C)
      else some false
  else some false

/-- The loop `for i := len(words) - 1; i >= 0; i--` of `GetLastName`, entered
with `i + 1 = n`: the value of `lastName` when the loop is left. -/
def lastNameLoop (words : List GoString) : Nat → Option GoString
  | 0 => some []
  | i + 1 =>
    match words[i]? with
    | none => none
    | some w =>
      match isHonorific w with
      | none => none
      | some false => some w
      | some true => lastNameLoop words i

/-- The function `GetLastName` of `main.go`. -/
def GetLastName (name : GoString) : Option GoString :=
  let words := Fields name
  match lastNameLoop words words.length with
  | none => none
  | some lastName =>
    let lastName := TrimSuffix lastName (utf8 ",")
    let lastName := TrimSuffix lastName (utf8 ".")
    some (utf8 "(" ++ lastName ++ utf8 ")")

/-- The loop `for i, name := range nameList[1:]` of `GetLastNames`. -/
def lastNamesLoop : List GoString → Option (List GoString)
  | [] => some []
  | name :: rest =>
    match GetLastName name with
    | none => none
    | some l =>
      match lastNamesLoop rest with
      | none => none
      | some ls => some (l :: ls)

/-- The function `GetLastNames` of `main.go`. -/
def GetLastNames (names : GoString) : Option GoString :=
  let nameList := Split names (utf8 " & ")
  match nameList with
  | [] => none
  | [n0] => GetLastName n0
  | [n0, n1] =>
    match GetLastName n0, GetLastName n1 with
    | some a, some b => some (a ++ utf8 " & " ++ b)
    | _, _ => none
  | firstName :: rest =>
    match lastNamesLoop rest, GetLastName firstName with
    | some lastNames, some a => some (a ++ utf8 " & " ++ Join lastNames (utf8 " & "))
    | _, _ => none

/-- The title column of `getListOfBooks`:
`if len(title) > 30 { truncatedTitle = title[:30] + "..." }`. -/
def truncatedTitle (title : GoString) : GoString :=
  if title.length > 30 then title.take 30 ++ utf8 "..." else title

/-- The function `styleToColor` of `main.go`. -/
def styleToColor (style : Int) : GoString :=
  match style with
  | 1 => utf8 "#a8e196"
  | 2 => utf8 "#a5c3ff"
  | 3 => utf8 "#fde15c"
  | 4 => utf8 "#ffaabf"
  | 5 => utf8 "#cdbbfb"
  | _ => utf8 ""

/-- The type `sql.NullString`. -/
structure NullString where
  String : GoString
  Valid : Bool
deriving DecidableEq

/-- The record `SingleHighlightNote` of `db/structs.go`. -/
structure SingleHighlightNote where
  HightLight : GoString
  Note : NullString
  Style : Int
deriving DecidableEq

/-- The text handed to the first `fmt.Println` of the export loop:
`fmt.Sprintf("> <span style='background-color:%s;color:black'>%s</span>",
  styleToColor(Style), strings.Replace(HightLight, "\n", "", -1))`. -/
def highlightLine (a : SingleHighlightNote) : GoString :=
  utf8 "> <span style='background-color:" ++ styleToColor a.Style
    ++ utf8 ";color:black'>" ++ Replace a.HightLight (utf8 "\n") (utf8 "") (-1)
    ++ utf8 "</span>"

/-- The text handed to the second `fmt.Println`, when the note is valid:
`fmt.Sprintf("\n%s", strings.Replace(Note.String, "\n", "", -1))`. -/
def noteLine (a : SingleHighlightNote) : GoString :=
  utf8 "\n" ++ Replace a.Note.String (utf8 "\n") (utf8 "") (-1)

/-- The text handed to the last `fmt.Println` of a block. -/
def separator : GoString := utf8 "---\n\n"

/-- One pass of the export loop of `exportNotesAndHighlights`: the arguments
of its `fmt.Println` calls, in order. -/
def exportLoopBody (a : SingleHighlightNote) : List GoString :=
  [highlightLine a] ++ (if a.Note.Valid then [noteLine a] else []) ++ [separator]

/-- The function `fmt.Println` of one string: the string and a newline. -/
def Println (s : GoString) : GoString := s ++ utf8 "\n"

/-- The bytes one pass of the export loop writes to standard output. -/
def exportLoopOutput (a : SingleHighlightNote) : GoString :=
  ((exportLoopBody a).map Println).flatten

/-! ## Auxiliary facts: the standard-library functions -/

theorem TrimSuffix_cases (s suffix : GoString) :
    TrimSuffix s suffix = s ∨ s = TrimSuffix s suffix ++ suffix := by
  unfold TrimSuffix
  by_cases h : HasSuffix s suffix = true
  · right
    rw [if_pos h]
    unfold HasSuffix at h
    simp only [Bool.and_eq_true, decide_eq_true_eq, beq_iff_eq] at h
    conv_lhs => rw [← List.take_append_drop (s.length - suffix.length) s]
    rw [h.2]
  · left
    rw [if_neg h]

/-- The standard-library functions on sample inputs: `Fields` cuts at runs of
ASCII and Unicode spaces (here a tab and U+3000) and drops leading and
trailing ones; `Split` keeps the empty piece between two adjacent separators;
`Replace` with a count replaces the first instances only. -/
theorem strings_examples :
    Fields (utf8 "  a b\tc\u3000d  ") = [utf8 "a", utf8 "b", utf8 "c", utf8 "d"] ∧
    Fields (utf8 "Dr. John Smith Jr.") =
      [utf8 "Dr.", utf8 "John", utf8 "Smith", utf8 "Jr."] ∧
    Split (utf8 "a & b &  & c") (utf8 " & ") = [utf8 "a", utf8 "b", utf8 "", utf8 "c"] ∧
    Split (utf8 "a&b") (utf8 " & ") = [utf8 "a&b"] ∧
    Join [utf8 "a", utf8 "b", utf8 "c"] (utf8 " & ") = utf8 "a & b & c" ∧
    Replace (utf8 "aXbXc") (utf8 "X") (utf8 "--") 1 = utf8 "a--bXc" ∧
    TrimSuffix (utf8 "Smith,") (utf8 ",") = utf8 "Smith" ∧
    TrimSuffix (utf8 "Smith") (utf8 ",") = utf8 "Smith" := by
  decide

/-! ## Auxiliary facts: the backward scan of `GetLastName` -/

theorem lastNameLoop_skip (pre post : List GoString) (w : GoString)
    (hw : isHonorific w = some false)
    (hp : ∀ x ∈ post, isHonorific x = some true) :
    ∀ k, k ≤ post.length →
      lastNameLoop (pre ++ w :: post) (pre.length + 1 + k) = some w := by
  intro k
  induction k with
  | zero =>
    intro _
    show lastNameLoop (pre ++ w :: post) (pre.length + 1) = some w
    have hidx : (pre ++ w :: post)[pre.length]? = some w := by
      rw [List.getElem?_append_right (Nat.le_refl _)]
      simp
    rw [lastNameLoop, hidx]
    simp only [hw]
  | succ k ih =>
    intro hk
    have hlt : k < post.length := hk
    have hidx : (pre ++ w :: post)[pre.length + 1 + k]? = some (post.get ⟨k, hlt⟩) := by
      rw [List.getElem?_append_right (by omega)]
      have : pre.length + 1 + k - pre.length = k + 1 := by omega
      rw [this]
      simp
    have hh : isHonorific (post.get ⟨k, hlt⟩) = some true := hp _ (List.get_mem _ _ _)
    show lastNameLoop (pre ++ w :: post) (pre.length + 1 + k + 1) = some w
    rw [lastNameLoop, hidx]
    simp only [hh]
    exact ih (by omega)

theorem lastNameLoop_allHonorific (words : List GoString)
    (hp : ∀ x ∈ words, isHonorific x = some true) :
    ∀ k, k ≤ words.length → lastNameLoop words k = some [] := by
  intro k
  induction k with
  | zero => intro _; rfl
  | succ k ih =>
    intro hk
    have hlt : k < words.length := hk
    have hidx : words[k]? = some (words.get ⟨k, hlt⟩) := by simp
    have hh : isHonorific (words.get ⟨k, hlt⟩) = some true := hp _ (List.get_mem _ _ _)
    rw [lastNameLoop, hidx]
    simp only [hh]
    exact ih (by omega)

theorem exists_rightmost (words : List GoString)
    (hsome : ∀ x ∈ words, ∃ b, isHonorific x = some b)
    (h : ∃ w ∈ words, isHonorific w = some false) :
    ∃ pre w post, words = pre ++ w :: post ∧ isHonorific w = some false ∧
      ∀ x ∈ post, isHonorific x = some true := by
  induction words with
  | nil => obtain ⟨w, hw, _⟩ := h; simp at hw
  | cons a rest ih =>
    by_cases hr : ∃ w ∈ rest, isHonorific w = some false
    · obtain ⟨pre, w, post, he, hw, hp⟩ :=
        ih (fun x hx => hsome x (List.mem_cons_of_mem _ hx)) hr
      exact ⟨a :: pre, w, post, by rw [he]; rfl, hw, hp⟩
    · have ha : isHonorific a = some false := by
        obtain ⟨w, hw, hwf⟩ := h
        rcases List.mem_cons.mp hw with rfl | hw
        · exact hwf
        · exact absurd ⟨w, hw, hwf⟩ hr
      refine ⟨[], a, rest, rfl, ha, ?_⟩
      intro x hx
      obtain ⟨b, hb⟩ := hsome x (List.mem_cons_of_mem _ hx)
      cases b with
      | true => exact hb
      | false => exact absurd ⟨x, hx, hb⟩ hr

/-! ## Auxiliary facts: words are never empty -/

theorem DecodeRuneInString_width_pos (b : Nat) (bs : GoString) :
    1 ≤ (DecodeRuneInString (b :: bs)).2 := by
  unfold DecodeRuneInString
  simp only
  split_ifs <;> (try split) <;> (try split_ifs) <;> simp

theorem runesFrom_chunk_ne (s : GoString) :
    ∀ k, ∀ p ∈ runesFrom k s, p.2 ≠ [] := by
  induction s with
  | nil => intro k p hp; simp [runesFrom] at hp
  | cons b bs ih =>
    intro k p hp
    cases k with
    | succ k => exact ih k p (by simpa [runesFrom] using hp)
    | zero =>
      rw [runesFrom] at hp
      rcases List.mem_cons.mp hp with rfl | hp
      · have hw := DecodeRuneInString_width_pos b bs
        obtain ⟨n, hn⟩ : ∃ n, (DecodeRuneInString (b :: bs)).2 = n + 1 :=
          ⟨(DecodeRuneInString (b :: bs)).2 - 1, by omega⟩
        simp [hn]
      · exact ih _ p hp

theorem fieldsLoop_ne (ps : List (Nat × GoString)) (hps : ∀ p ∈ ps, p.2 ≠ []) :
    ∀ cur : Option GoString, (∀ w, cur = some w → w ≠ []) →
      ∀ x ∈ fieldsLoop ps cur, x ≠ [] := by
  induction ps with
  | nil =>
    intro cur hcur x hx
    cases cur with
    | none => simp [fieldsLoop] at hx
    | some w =>
      simp only [fieldsLoop, List.mem_singleton] at hx
      subst hx
      exact hcur _ rfl
  | cons p rest ih =>
    intro cur hcur x hx
    have hrest : ∀ q ∈ rest, q.2 ≠ [] := fun q hq => hps q (List.mem_cons_of_mem _ hq)
    have hp : p.2 ≠ [] := hps p (List.mem_cons_self _ _)
    cases cur with
    | none =>
      rw [fieldsLoop] at hx
      split_ifs at hx
      · exact ih hrest none (by simp) x hx
      · exact ih hrest (some p.2) (by intro w hw; cases hw; exact hp) x hx
    | some w =>
      rw [fieldsLoop] at hx
      split_ifs at hx
      · rcases List.mem_cons.mp hx with rfl | hx
        · exact hcur _ rfl
        · exact ih hrest none (by simp) x hx
      · refine ih hrest (some (w ++ p.2)) ?_ x hx
        intro v hv
        cases hv
        simp [hp]

theorem Fields_ne (s : GoString) : ∀ w ∈ Fields s, w ≠ [] :=
  fieldsLoop_ne (runes s) (runesFrom_chunk_ne s 0) none (by simp)

theorem fieldsLoop_allSpace (ps : List (Nat × GoString))
    (h : ∀ p ∈ ps, IsSpace p.1 = true) : fieldsLoop ps none = [] := by
  induction ps with
  | nil => rfl
  | cons p rest ih =>
    rw [fieldsLoop, if_pos (h p (List.mem_cons_self _ _))]
    exact ih (fun q hq => h q (List.mem_cons_of_mem _ hq))

theorem isHonorific_some (w : GoString) (hw : w ≠ []) : ∃ b, isHonorific w = some b := by
  cases w with
  | nil => exact absurd rfl hw
  | cons c cs =>
    unfold isHonorific
    have hl : (c :: cs)[(c :: cs).length - 1]? =
        some ((c :: cs).get ⟨(c :: cs).length - 1, by simp⟩) := by
      rw [List.getElem?_eq_getElem]
      rfl
    split_ifs
    · simp only [List.getElem?_cons_zero]
      split_ifs
      · rw [hl]; exact ⟨_, rfl⟩
      · exact ⟨_, rfl⟩
    · exact ⟨_, rfl⟩

theorem Fields_isHonorific_some (s : GoString) :
    ∀ w ∈ Fields s, ∃ b, isHonorific w = some b :=
  fun w hw => isHonorific_some w (Fields_ne s w hw)

theorem lastNameLoop_some (words : List GoString)
    (hsome : ∀ x ∈ words, ∃ b, isHonorific x = some b) :
    ∀ k, k ≤ words.length → ∃ r, lastNameLoop words k = some r := by
  intro k
  induction k with
  | zero => intro _; exact ⟨[], rfl⟩
  | succ k ih =>
    intro hk
    have hlt : k < words.length := hk
    have hidx : words[k]? = some (words.get ⟨k, hlt⟩) := by simp
    obtain ⟨b, hb⟩ := hsome _ (List.get_mem words k hlt)
    rw [lastNameLoop, hidx]
    cases b with
    | false => simp only [hb]; exact ⟨_, rfl⟩
    | true => simp only [hb]; exact ih (by omega)

theorem GetLastName_some (name : GoString) : ∃ r, GetLastName name = some r := by
  obtain ⟨w, hw⟩ := lastNameLoop_some (Fields name) (Fields_isHonorific_some name)
    (Fields name).length (Nat.le_refl _)
  unfold GetLastName
  simp only [hw]
  exact ⟨_, rfl⟩

theorem lastNamesLoop_some (l : List GoString) :
    ∃ ls, lastNamesLoop l = some ls ∧ l.map GetLastName = ls.map some := by
  induction l with
  | nil => exact ⟨[], rfl, rfl⟩
  | cons a rest ih =>
    obtain ⟨ls, h1, h2⟩ := ih
    obtain ⟨r, hr⟩ := GetLastName_some a
    refine ⟨r :: ls, ?_, ?_⟩
    · rw [lastNamesLoop]; simp only [hr, h1]
    · simp [hr, h2]

/-! ## Auxiliary facts: `Split` and `Join` -/

theorem splitLoop_ne_nil (sep : GoString) (n : Nat) (s : GoString) :
    splitLoop sep n s ≠ [] := by
  cases n with
  | zero => simp [splitLoop]
  | succ n =>
    rw [splitLoop]
    split <;> simp

theorem Split_ne_nil (s sep : GoString) (hsep : sep ≠ []) : Split s sep ≠ [] := by
  unfold Split
  rw [if_neg hsep]
  exact splitLoop_ne_nil _ _ _

theorem foldl_join_step (sep : GoString) (rest : List GoString) :
    ∀ x y : GoString,
      rest.foldl (fun b s => b ++ sep ++ s) (x ++ y) =
        x ++ rest.foldl (fun b s => b ++ sep ++ s) y := by
  induction rest with
  | nil => intro x y; rfl
  | cons r rest ih =>
    intro x y
    simp only [List.foldl_cons]
    rw [← ih x (y ++ sep ++ r)]
    simp [List.append_assoc]

theorem Join_cons (a : GoString) (ls : List GoString) (sep : GoString) (h : ls ≠ []) :
    Join (a :: ls) sep = a ++ sep ++ Join ls sep := by
  cases ls with
  | nil => exact absurd rfl h
  | cons b rest =>
    cases rest with
    | nil => rfl
    | cons c rest =>
      show (c :: rest).foldl _ (a ++ sep ++ b) = a ++ sep ++ (c :: rest).foldl _ b
      exact foldl_join_step sep (c :: rest) (a ++ sep) b

theorem Join_eq_intercalate (ls : List GoString) (sep : GoString) :
    Join ls sep = List.intercalate sep ls := by
  induction ls with
  | nil => rfl
  | cons a rest ih =>
    cases rest with
    | nil => simp [Join, List.intercalate]
    | cons b rest =>
      rw [Join_cons a (b :: rest) sep (by simp), ih]
      simp [List.intercalate, List.append_assoc]

theorem HasPrefix_split (s pre : GoString) (h : HasPrefix s pre = true) :
    s = pre ++ s.drop pre.length := by
  unfold HasPrefix at h
  simp only [Bool.and_eq_true, decide_eq_true_eq, beq_iff_eq] at h
  conv_lhs => rw [← List.take_append_drop pre.length s, h.2]

/-- Where `Index` finds `substr`, the string is the part before, `substr`, and
the part after. -/
theorem Index_some_split (substr : GoString) (s : GoString) :
    ∀ m, Index s substr = some m →
      s = s.take m ++ substr ++ s.drop (m + substr.length) := by
  induction s with
  | nil =>
    intro m h
    rw [Index] at h
    split_ifs at h with he
    subst he
    cases h
    rfl
  | cons c cs ih =>
    intro m h
    rw [Index] at h
    by_cases hp : HasPrefix (c :: cs) substr = true
    · rw [if_pos hp] at h
      cases h
      simpa using HasPrefix_split _ _ hp
    · rw [if_neg hp] at h
      cases hi : Index cs substr with
      | none => rw [hi] at h; exact Option.noConfusion h
      | some i =>
        rw [hi] at h
        have hm : m = i + 1 := by cases h; rfl
        subst hm
        have h2 := ih i hi
        have hidx : i + 1 + substr.length = (i + substr.length) + 1 := by omega
        rw [hidx]
        simp only [List.take_succ_cons, List.drop_succ_cons, List.cons_append]
        rw [← h2]

theorem countLoop_le_fuel (substr : GoString) :
    ∀ fuel (s : GoString), countLoop substr fuel s ≤ fuel := by
  intro fuel
  induction fuel with
  | zero => intro s; exact Nat.le_refl _
  | succ fuel ih =>
    intro s
    rw [countLoop]
    cases Index s substr with
    | none => exact Nat.zero_le _
    | some i =>
      have := ih (s.drop (i + substr.length))
      simp only
      omega

/-- With a non-empty separator the bound `len(s) + 1` of `genSplit` never
applies: the loop of `Split` runs `Count(s, sep)` times. -/
theorem Split_eq_splitLoop (s sep : GoString) (hsep : sep ≠ []) :
    Split s sep = splitLoop sep (Count s sep) s := by
  unfold Split
  rw [if_neg hsep]
  have : Count s sep ≤ s.length := by
    unfold Count
    rw [if_neg hsep]
    exact countLoop_le_fuel sep _ s
  have hmin : min (Count s sep + 1) (s.length + 1) - 1 = Count s sep := by omega
  rw [hmin]

theorem Join_splitLoop (sep : GoString) :
    ∀ n (s : GoString), Join (splitLoop sep n s) sep = s := by
  intro n
  induction n with
  | zero => intro s; rfl
  | succ n ih =>
    intro s
    rw [splitLoop]
    cases hi : Index s sep with
    | none => rfl
    | some m =>
      simp only
      rw [Join_cons _ _ _ (splitLoop_ne_nil _ _ _), ih]
      exact (Index_some_split sep s m hi).symm

/-- The pieces of `Split`, joined with the separator, give the string back. -/
theorem Join_Split (s sep : GoString) (hsep : sep ≠ []) : Join (Split s sep) sep = s := by
  rw [Split_eq_splitLoop s sep hsep]
  exact Join_splitLoop sep _ s

theorem splitLoop_countLoop_last (sep : GoString) (hsep : sep ≠ []) :
    ∀ fuel (s : GoString), s.length ≤ fuel →
      ∀ t, (splitLoop sep (countLoop sep fuel s) s).getLast? = some t →
        Index t sep = none := by
  intro fuel
  induction fuel with
  | zero =>
    intro s hs t ht
    have : s = [] := List.length_eq_zero.mp (Nat.le_zero.mp hs)
    subst this
    simp only [countLoop, splitLoop, List.getLast?_singleton, Option.some.injEq] at ht
    subst ht
    rw [Index, if_neg hsep]
  | succ fuel ih =>
    intro s hs t ht
    rw [countLoop] at ht
    cases hi : Index s sep with
    | none =>
      rw [hi] at ht
      simp only [splitLoop, List.getLast?_singleton, Option.some.injEq] at ht
      subst ht
      exact hi
    | some i =>
      rw [hi] at ht
      simp only at ht
      rw [Nat.add_comm 1, splitLoop, hi] at ht
      simp only at ht
      have hne := splitLoop_ne_nil sep
        (countLoop sep fuel (s.drop (i + sep.length))) (s.drop (i + sep.length))
      obtain ⟨x, xs, hx⟩ := List.exists_cons_of_ne_nil hne
      rw [hx, List.getLast?_cons_cons, ← hx] at ht
      refine ih (s.drop (i + sep.length)) ?_ t ht
      have hpos : 0 < sep.length := List.length_pos.mpr hsep
      rw [List.length_drop]
      omega

/-- The loop of `Split` is not cut short: the last piece holds no further
separator. -/
theorem Split_last_no_sep (s sep : GoString) (hsep : sep ≠ []) :
    ∀ t, (Split s sep).getLast? = some t → Index t sep = none := by
  intro t ht
  rw [Split_eq_splitLoop s sep hsep] at ht
  unfold Count at ht
  rw [if_neg hsep] at ht
  exact splitLoop_countLoop_last sep hsep s.length s (Nat.le_refl _) t ht

theorem GetLastNames_of_pieces (names : GoString) (l ls : List GoString)
    (hsplit : Split names (utf8 " & ") = l) (hl : l ≠ [])
    (hls : l.map GetLastName = ls.map some) :
    GetLastNames names = some (Join ls (utf8 " & ")) := by
  unfold GetLastNames
  rw [hsplit]
  match l, ls, hl, hls with
  | [], _, hl, _ => exact absurd rfl hl
  | [n0], [], _, hls => simp at hls
  | [n0], [a], _, hls =>
    simp only [List.map_cons, List.map_nil, List.cons.injEq, and_true] at hls
    simp only [hls]
    rfl
  | [n0], _ :: _ :: _, _, hls => simp at hls
  | [n0, n1], [], _, hls => simp at hls
  | [n0, n1], [_], _, hls => simp at hls
  | [n0, n1], [a, b], _, hls =>
    simp only [List.map_cons, List.map_nil, List.cons.injEq, and_true] at hls
    simp only [hls.1, hls.2]
    rfl
  | [n0, n1], _ :: _ :: _ :: _, _, hls => simp at hls
  | n0 :: n1 :: n2 :: rest, [], _, hls => simp at hls
  | n0 :: n1 :: n2 :: rest, a :: ls, _, hls =>
    simp only [List.map_cons, List.cons.injEq] at hls
    obtain ⟨h0, hrest⟩ := hls
    obtain ⟨ls2, hl1, hl2⟩ := lastNamesLoop_some (n1 :: n2 :: rest)
    have hlseq : ls2 = ls := by
      have : ls2.map some = ls.map some := by
        rw [← hl2]; simpa using hrest
      exact (List.map_injective_iff.mpr (Option.some_injective _)) this
    subst hlseq
    have hne : ls2 ≠ [] := by
      intro h; subst h; simp at hrest
    simp only [hl1, h0]
    rw [Join_cons a ls2 _ hne]

/-! ## Author normalisation -/

/-- Claim C1. For every input, `GetLastNames` returns the results of
`GetLastName` on the pieces of the input split on `" & "`, in their order,
joined with `" & "`; there is at least one piece; two pieces give
`GetLastName p1 ++ " & " ++ GetLastName p2`; and `"A B & C D & E F"`, whose
pieces are `"A B"`, `"C D"`, `"E F"`, gives `"(B) & (D) & (F)"`. -/
theorem GetLastNames_eq_join_pieces :
    (∀ names : GoString, ∃ ls : List GoString, ls ≠ [] ∧
      (Split names (utf8 " & ")).map GetLastName = ls.map some ∧
      GetLastNames names = some (Join ls (utf8 " & ")) ∧
      Join ls (utf8 " & ") = List.intercalate (utf8 " & ") ls) ∧
    (∀ names p1 p2 : GoString, Split names (utf8 " & ") = [p1, p2] →
      ∃ a b, GetLastName p1 = some a ∧ GetLastName p2 = some b ∧
        GetLastNames names = some (a ++ utf8 " & " ++ b)) ∧
    Split (utf8 "A B & C D & E F") (utf8 " & ") = [utf8 "A B", utf8 "C D", utf8 "E F"] ∧
    GetLastNames (utf8 "A B & C D & E F") = some (utf8 "(B) & (D) & (F)") := by
  have hsep : utf8 " & " ≠ [] := by decide
  refine ⟨?_, ?_, by decide, by decide⟩
  · intro names
    obtain ⟨ls, _, hls⟩ := lastNamesLoop_some (Split names (utf8 " & "))
    have hne : Split names (utf8 " & ") ≠ [] := Split_ne_nil _ _ hsep
    refine ⟨ls, ?_, hls, GetLastNames_of_pieces names _ ls rfl hne hls,
      Join_eq_intercalate _ _⟩
    intro h
    subst h
    simp at hls
    exact hne hls
  · intro names p1 p2 hsplit
    obtain ⟨a, ha⟩ := GetLastName_some p1
    obtain ⟨b, hb⟩ := GetLastName_some p2
    refine ⟨a, b, ha, hb, ?_⟩
    have := GetLastNames_of_pieces names [p1, p2] [a, b] hsplit (by simp) (by simp [ha, hb])
    rw [this]
    rfl

/-- Claim C2. When a name has a word that is not an honorific, the words
split as `pre ++ w :: post` with `w` not an honorific and every word of
`post` an honorific; for every such split (whatever `pre` is) `GetLastName`
returns `"(" ++ s ++ ")"`, `s` being `w` with its trailing comma and period
trimmed; and when no word is an honorific, `w` is the last word. -/
theorem GetLastName_rightmost_nonHonorific (name : GoString)
    (h : ∃ w ∈ Fields name, isHonorific w = some false) :
    (∃ pre w post, Fields name = pre ++ w :: post ∧ isHonorific w = some false ∧
      ∀ x ∈ post, isHonorific x = some true) ∧
    (∀ pre w post, Fields name = pre ++ w :: post → isHonorific w = some false →
      (∀ x ∈ post, isHonorific x = some true) →
      GetLastName name =
        some (utf8 "(" ++ TrimSuffix (TrimSuffix w (utf8 ",")) (utf8 ".") ++ utf8 ")")) ∧
    ((∀ x ∈ Fields name, isHonorific x = some false) →
      ∀ hne : Fields name ≠ [],
        GetLastName name =
          some (utf8 "(" ++
            TrimSuffix (TrimSuffix ((Fields name).getLast hne) (utf8 ",")) (utf8 ".")
            ++ utf8 ")")) := by
  have key : ∀ pre w post, Fields name = pre ++ w :: post → isHonorific w = some false →
      (∀ x ∈ post, isHonorific x = some true) →
      GetLastName name =
        some (utf8 "(" ++ TrimSuffix (TrimSuffix w (utf8 ",")) (utf8 ".") ++ utf8 ")") := by
    intro pre w post hf hw hp
    have hloop := lastNameLoop_skip pre post w hw hp post.length (Nat.le_refl _)
    have hlen : (Fields name).length = pre.length + 1 + post.length := by
      rw [hf]; simp; omega
    unfold GetLastName
    simp only [hlen]
    rw [hf, hloop]
  refine ⟨exists_rightmost _ (Fields_isHonorific_some name) h, key, ?_⟩
  intro hall hne
  have hsplit : Fields name = (Fields name).dropLast ++ (Fields name).getLast hne :: [] :=
    (List.dropLast_append_getLast hne).symm
  exact key _ _ [] hsplit (hall _ (List.getLast_mem hne)) (by simp)

/-- The examples of claim C2: `"Dr. John Smith Jr."` gives `"(Smith)"` (the
honorific `"Jr."` is skipped, `"Dr."` and `"John"` play no part) and
`"Jane Doe"` gives `"(Doe)"`. -/
theorem GetLastName_rightmost_nonHonorific_witness :
    (∃ w ∈ Fields (utf8 "Dr. John Smith Jr."), isHonorific w = some false) ∧
    GetLastName (utf8 "Dr. John Smith Jr.") = some (utf8 "(Smith)") ∧
    GetLastName (utf8 "Jane Doe") = some (utf8 "(Doe)") :=
  ⟨⟨utf8 "Smith", by decide, by decide⟩,
   ((GetLastName_rightmost_nonHonorific (utf8 "Dr. John Smith Jr.")
      ⟨utf8 "Smith", by decide, by decide⟩).2.1
      [utf8 "Dr.", utf8 "John"] (utf8 "Smith") [utf8 "Jr."]
      (by decide) (by decide) (by decide)).trans (by decide),
   ((GetLastName_rightmost_nonHonorific (utf8 "Jane Doe")
      ⟨utf8 "Doe", by decide, by decide⟩).2.2 (by decide) (by decide)).trans (by decide)⟩

/-- Claim C3 as stated fails: the word selected in `"John Smith.,"` is
`"Smith.,"` (7 bytes), and the text between the parentheses is `"Smith"`
(5 bytes): two trailing characters are removed. -/
theorem GetLastName_strips_two :
    lastNameLoop (Fields (utf8 "John Smith.,")) (Fields (utf8 "John Smith.,")).length
      = some (utf8 "Smith.,") ∧
    GetLastName (utf8 "John Smith.,") = some (utf8 "(" ++ utf8 "Smith" ++ utf8 ")") ∧
    (utf8 "Smith.,").length = (utf8 "Smith").length + 2 ∧
    utf8 "Smith" ≠ utf8 "Smith.," ∧
    ¬ (∃ c, utf8 "Smith.," = utf8 "Smith" ++ [c]) := by
  refine ⟨by decide, by decide, by decide, by decide, ?_⟩
  rintro ⟨c, hc⟩
  have := congrArg List.length hc
  simp [utf8, encodeRune] at this

/-- Claim C3, amended. `GetLastName` trims one trailing comma and then one
trailing period from the selected word: the text between the parentheses is
the selected word unchanged, or the word without one trailing `,` or `.`, or,
for a word ending in `.,`, the word without these two characters. -/
theorem GetLastName_strip_shape (name : GoString) :
    ∃ w inner : GoString,
      lastNameLoop (Fields name) (Fields name).length = some w ∧
      inner = TrimSuffix (TrimSuffix w (utf8 ",")) (utf8 ".") ∧
      GetLastName name = some (utf8 "(" ++ inner ++ utf8 ")") ∧
      (w = inner ∨ w = inner ++ utf8 "," ∨ w = inner ++ utf8 "." ∨
        w = inner ++ utf8 ".,") := by
  obtain ⟨w, hw⟩ := lastNameLoop_some (Fields name) (Fields_isHonorific_some name)
    (Fields name).length (Nat.le_refl _)
  refine ⟨w, _, hw, rfl, ?_, ?_⟩
  · unfold GetLastName
    simp only [hw]
  · have hdot : utf8 ".," = utf8 "." ++ utf8 "," := by decide
    rcases TrimSuffix_cases w (utf8 ",") with h1 | h1
    · rw [h1]
      rcases TrimSuffix_cases w (utf8 ".") with h2 | h2
      · left; exact h2.symm
      · right; right; left; exact h2
    · rcases TrimSuffix_cases (TrimSuffix w (utf8 ",")) (utf8 ".") with h2 | h2
      · right; left; rw [h2]; exact h1
      · right; right; right
        rw [hdot, ← List.append_assoc, ← h2]
        exact h1

/-- Claim C5. When every word of a name is an honorific, `GetLastName`
returns `"()"`. -/
theorem GetLastName_allHonorific (name : GoString)
    (h : ∀ w ∈ Fields name, isHonorific w = some true) :
    GetLastName name = some (utf8 "()") := by
  have hloop := lastNameLoop_allHonorific (Fields name) h (Fields name).length (Nat.le_refl _)
  unfold GetLastName
  simp only [hloop]
  decide

/-- The name `"Dr. Jr."`, both words honorifics, gives `"()"`. -/
theorem GetLastName_allHonorific_witness :
    (∀ w ∈ Fields (utf8 "Dr. Jr."), isHonorific w = some true) ∧
    GetLastName (utf8 "Dr. Jr.") = some (utf8 "()") :=
  ⟨by decide, GetLastName_allHonorific (utf8 "Dr. Jr.") (by decide)⟩

theorem runes_ascii (s : GoString) (h : ∀ b ∈ s, b < 0x80) :
    runes s = s.map (fun b => (b, [b])) := by
  unfold runes
  induction s with
  | nil => rfl
  | cons b bs ih =>
    have hb : b < 0x80 := h b (List.mem_cons_self _ _)
    have hd : DecodeRuneInString (b :: bs) = (b, 1) := by
      unfold DecodeRuneInString
      simp only [if_pos hb]
    rw [runesFrom]
    simp only [hd, List.map_cons]
    rw [ih (fun x hx => h x (List.mem_cons_of_mem _ hx))]
    rfl

/-- The byte-level reading of `isHonorific`: for a non-empty word it holds
exactly when the word has at most 3 bytes, its first byte, read as a Latin-1
code point, is an upper-case letter, and its last byte is `.` or `,`. -/
theorem isHonorific_bytes (c : Nat) (cs : GoString) :
    isHonorific (c :: cs) =
      some (decide ((c :: cs).length ≤ 3) && IsUpper c &&
        ((c :: cs).getLast (by simp) == 0x2E || (c :: cs).getLast (by simp) == 0x2C)) := by
  have hl : (c :: cs)[(c :: cs).length - 1]? = some ((c :: cs).getLast (by simp)) := by
    rw [List.getLast_eq_getElem, List.getElem?_eq_getElem]
  unfold isHonorific
  by_cases h3 : (c :: cs).length ≤ 3
  · rw [if_pos h3]
    simp only [List.getElem?_cons_zero]
    by_cases hu : IsUpper c = true
    · rw [if_pos hu, hl, decide_eq_true h3, hu]
      rfl
    · rw [if_neg hu]
      simp only [Bool.not_eq_true] at hu
      rw [hu, Bool.and_false, Bool.false_and]
  · rw [if_neg h3, decide_eq_false h3, Bool.false_and, Bool.false_and]

/-- Claim C4 as stated fails: the word `"Sé."` has 3 characters, the first an
upper-case letter and the last a period, yet `isHonorific` rejects it, because
it has 4 bytes and `len(word)` counts bytes. -/
theorem isHonorific_counts_bytes :
    isHonorific (utf8 "Sé.") = some false ∧
    (runes (utf8 "Sé.")).map (·.1) = [0x53, 0xE9, 0x2E] ∧
    RuneCountInString (utf8 "Sé.") = 3 ∧
    (utf8 "Sé.").length = 4 ∧
    IsUpper 0x53 = true := by
  decide

/-- Claim C4, amended. For a word whose first character is an ASCII character
(a single byte `c`, which `range` decodes as the rune `c`), `isHonorific`
returns a value, and returns `true` exactly when the word has at most 3
bytes, `c` is an upper-case letter (`A..Z`) and the last byte is `.` or `,`. -/
theorem isHonorific_ascii_first (c : Nat) (cs : GoString) (hc : c < 0x80) :
    (runes (c :: cs)).head? = some (c, [c]) ∧
    (IsUpper c = true ↔ 0x41 ≤ c ∧ c ≤ 0x5A) ∧
    (isHonorific (c :: cs) = some true ∨ isHonorific (c :: cs) = some false) ∧
    (isHonorific (c :: cs) = some true ↔
      (c :: cs).length ≤ 3 ∧ (0x41 ≤ c ∧ c ≤ 0x5A) ∧
        ((c :: cs).getLast (by simp) = 0x2E ∨ (c :: cs).getLast (by simp) = 0x2C)) := by
  have hup : IsUpper c = true ↔ 0x41 ≤ c ∧ c ≤ 0x5A := by
    unfold IsUpper
    simp only [Bool.or_eq_true, Bool.and_eq_true, decide_eq_true_eq]
    omega
  have hd : DecodeRuneInString (c :: cs) = (c, 1) := by
    unfold DecodeRuneInString
    simp only [if_pos hc]
  refine ⟨?_, hup, ?_, ?_⟩
  · unfold runes
    rw [runesFrom]
    simp only [hd, List.head?_cons]
    rfl
  · rw [isHonorific_bytes]
    cases (decide ((c :: cs).length ≤ 3) && IsUpper c &&
      ((c :: cs).getLast (by simp) == 0x2E || (c :: cs).getLast (by simp) == 0x2C))
    · right; rfl
    · left; rfl
  · rw [isHonorific_bytes, ← hup]
    simp only [Option.some.injEq, Bool.and_eq_true, Bool.or_eq_true, decide_eq_true_eq,
      beq_iff_eq, and_assoc]

/-- The word `"Dr."` starts with the ASCII letter `D` and is an honorific. -/
theorem isHonorific_ascii_first_witness :
    (0x44 < 0x80) ∧ utf8 "Dr." = 0x44 :: [0x72, 0x2E] ∧
    isHonorific (0x44 :: [0x72, 0x2E]) = some true :=
  ⟨by decide, by decide,
   (isHonorific_ascii_first 0x44 [0x72, 0x2E] (by decide)).2.2.2.mpr (by decide)⟩

/-- Words that begin with a multi-byte character: `rune(word[0])` is the
first byte, not the first character. `"é."` (2 characters, the first the
lower-case U+00E9) is accepted, its first byte 0xC3 being the upper-case
U+00C3 when read as a rune; `"Éd."` (3 characters, the first the upper-case
U+00C9) is rejected, having 4 bytes. -/
theorem isHonorific_first_byte_not_first_rune :
    isHonorific (utf8 "é.") = some true ∧
    (runes (utf8 "é.")).map (·.1) = [0xE9, 0x2E] ∧
    IsUpper 0xE9 = false ∧
    isHonorific (utf8 "Éd.") = some false ∧
    (runes (utf8 "Éd.")).map (·.1) = [0xC9, 0x64, 0x2E] ∧
    IsUpper 0xC9 = true ∧
    GetLastName (utf8 "Zola é.") = some (utf8 "(Zola)") ∧
    GetLastName (utf8 "Zola Éd.") = some (utf8 "(Éd)") := by
  decide

/-- Claim C10. `GetLastName` and
`GetLastNames` return a value on every input: every word `strings.Fields`
yields is non-empty, and `isHonorific` (which panics on the empty word only)
returns a value on each of them. A name without a word (empty or all spaces)
gives `"()"`, and so does each empty piece of `" & A B & "`. -/
theorem GetLastName_GetLastNames_total :
    (∀ name : GoString, ∃ r, GetLastName name = some r) ∧
    (∀ names : GoString, ∃ r, GetLastNames names = some r) ∧
    (∀ name : GoString, ∀ w ∈ Fields name, w ≠ [] ∧ ∃ b, isHonorific w = some b) ∧
    (∀ w : GoString, isHonorific w = none ↔ w = []) ∧
    (∀ name : GoString, (∀ p ∈ runes name, IsSpace p.1 = true) →
      GetLastName name = some (utf8 "()")) ∧
    (∀ name : GoString, (∀ b ∈ name, b = 0x20 ∨ b = 0x09 ∨ b = 0x0A ∨ b = 0x0D) →
      GetLastName name = some (utf8 "()")) ∧
    GetLastName (utf8 "") = some (utf8 "()") ∧
    GetLastName (utf8 "  \t ") = some (utf8 "()") ∧
    Split (utf8 " & A B & ") (utf8 " & ") = [utf8 "", utf8 "A B", utf8 ""] ∧
    GetLastNames (utf8 " & A B & ") = some (utf8 "() & (B) & ()") ∧
    GetLastNames (utf8 "") = some (utf8 "()") := by
  have hspace : ∀ name : GoString, (∀ p ∈ runes name, IsSpace p.1 = true) →
      GetLastName name = some (utf8 "()") := by
    intro name h
    have hf : Fields name = [] := fieldsLoop_allSpace _ h
    unfold GetLastName
    rw [hf]
    decide
  refine ⟨GetLastName_some, ?_, ?_, ?_, hspace, ?_, by decide, by decide, by decide,
    by decide, by decide⟩
  · intro names
    obtain ⟨ls, _, hls⟩ := lastNamesLoop_some (Split names (utf8 " & "))
    exact ⟨_, GetLastNames_of_pieces names _ ls rfl
      (Split_ne_nil _ _ (by decide)) hls⟩
  · intro name w hw
    exact ⟨Fields_ne name w hw, Fields_isHonorific_some name w hw⟩
  · intro w
    constructor
    · intro h
      by_contra hne
      obtain ⟨b, hb⟩ := isHonorific_some w hne
      rw [hb] at h
      exact Option.noConfusion h
    · rintro rfl
      rfl
  · intro name h
    apply hspace
    have hascii : ∀ b ∈ name, b < 0x80 := by
      intro b hb
      rcases h b hb with h | h | h | h <;> omega
    rw [runes_ascii name hascii]
    intro p hp
    obtain ⟨b, hb, rfl⟩ := List.mem_map.mp hp
    rcases h b hb with h | h | h | h <;> subst h <;> rfl

/-! ## Title truncation -/

/-- Claim C6 as stated fails: a title of 16 characters `é` (32 bytes) is
not left unchanged; the listing shows its first 30 bytes, which are 15
characters, followed by `"..."`. -/
theorem truncatedTitle_counts_bytes :
    RuneCountInString (utf8 "éééééééééééééééé") = 16 ∧
    (utf8 "éééééééééééééééé").length = 32 ∧
    truncatedTitle (utf8 "éééééééééééééééé") = utf8 "ééééééééééééééé..." ∧
    truncatedTitle (utf8 "éééééééééééééééé") ≠ utf8 "éééééééééééééééé" := by
  decide

/-- Claim C6, amended. The title shown is the title unchanged when its length
in bytes is at most 30, and otherwise its first 30 bytes followed by `"..."`;
for a title of ASCII characters the length in bytes is the length in
characters, so a 35-character ASCII title becomes its first 30 characters
and `"..."`. -/
theorem truncatedTitle_spec (title : GoString) :
    (title.length ≤ 30 → truncatedTitle title = title) ∧
    (30 < title.length → truncatedTitle title = title.take 30 ++ utf8 "...") ∧
    ((∀ b ∈ title, b < 0x80) → RuneCountInString title = title.length) ∧
    truncatedTitle (utf8 "abcdefghijklmnopqrstuvwxyz012345678") =
      utf8 "abcdefghijklmnopqrstuvwxyz0123..." := by
  refine ⟨?_, ?_, ?_, by decide⟩
  · intro h
    unfold truncatedTitle
    rw [if_neg (by omega)]
  · intro h
    unfold truncatedTitle
    rw [if_pos h]
  · intro h
    unfold RuneCountInString
    rw [runes_ascii title h]
    simp

/-! ## Style colours -/

/-- Claim C7. `styleToColor` returns the five colours for the codes 1 to 5
and the empty string for every other integer; the result is empty exactly for
the codes outside 1..5, and different codes in 1..5 have different colours. -/
theorem styleToColor_table :
    styleToColor 1 = utf8 "#a8e196" ∧ styleToColor 2 = utf8 "#a5c3ff" ∧
    styleToColor 3 = utf8 "#fde15c" ∧ styleToColor 4 = utf8 "#ffaabf" ∧
    styleToColor 5 = utf8 "#cdbbfb" ∧
    styleToColor 0 = utf8 "" ∧ styleToColor (-1) = utf8 "" ∧ styleToColor 99 = utf8 "" ∧
    (∀ style : Int, (style < 1 ∨ 5 < style) → styleToColor style = utf8 "") ∧
    (∀ style : Int, styleToColor style = utf8 "" ↔ (style < 1 ∨ 5 < style)) ∧
    (∀ s t : Int, 1 ≤ s → s ≤ 5 → 1 ≤ t → t ≤ 5 →
      styleToColor s = styleToColor t → s = t) := by
  have hout : ∀ style : Int, (style < 1 ∨ 5 < style) → styleToColor style = utf8 "" := by
    intro style h
    unfold styleToColor
    split <;> first | omega | rfl
  have hin : ∀ style : Int, 1 ≤ style → style ≤ 5 →
      style = 1 ∨ style = 2 ∨ style = 3 ∨ style = 4 ∨ style = 5 := by
    intro style h1 h5; omega
  refine ⟨rfl, rfl, rfl, rfl, rfl, rfl, rfl, rfl, hout, ?_, ?_⟩
  · intro style
    constructor
    · intro h
      by_contra hc
      have h1 : 1 ≤ style := by omega
      have h5 : style ≤ 5 := by omega
      rcases hin style h1 h5 with r | r | r | r | r <;> subst r <;> revert h <;> decide
    · exact hout style
  · intro s t hs1 hs5 ht1 ht5
    rcases hin s hs1 hs5 with r | r | r | r | r <;>
      rcases hin t ht1 ht5 with q | q | q | q | q <;>
      subst r <;> subst q <;> decide

/-! ## Annotation rendering -/

theorem HasPrefix_single (x c : Nat) (xs : GoString) :
    HasPrefix (x :: xs) [c] = (x == c) := by
  unfold HasPrefix
  simp

theorem Index_single_none (c : Nat) (s : GoString) (h : Index s [c] = none) : c ∉ s := by
  induction s with
  | nil => simp
  | cons x xs ih =>
    rw [Index, HasPrefix_single] at h
    by_cases hx : (x == c) = true
    · rw [if_pos hx] at h; exact Option.noConfusion h
    · rw [if_neg hx] at h
      have hxs : Index xs [c] = none := by
        cases hi : Index xs [c] with
        | none => rfl
        | some j => rw [hi] at h; exact Option.noConfusion h
      have hne : x ≠ c := by simpa using hx
      intro hmem
      rcases List.mem_cons.mp hmem with rfl | hmem
      · exact hne rfl
      · exact ih hxs hmem

theorem Index_single_some (c : Nat) (s : GoString) :
    ∀ j, Index s [c] = some j →
      c ∉ s.take j ∧ s = s.take j ++ c :: s.drop (j + 1) := by
  induction s with
  | nil => intro j h; simp [Index] at h
  | cons x xs ih =>
    intro j h
    rw [Index, HasPrefix_single] at h
    by_cases hx : (x == c) = true
    · rw [if_pos hx] at h
      have hj : j = 0 := by cases h; rfl
      have hxc : x = c := by simpa using hx
      subst hj; subst hxc
      simp
    · rw [if_neg hx] at h
      have hne : x ≠ c := by simpa using hx
      cases hi : Index xs [c] with
      | none => rw [hi] at h; exact Option.noConfusion h
      | some i =>
        rw [hi] at h
        have hj : j = i + 1 := by cases h; rfl
        subst hj
        obtain ⟨h1, h2⟩ := ih i hi
        refine ⟨?_, ?_⟩
        · simp only [List.take_succ_cons, List.mem_cons, not_or]
          exact ⟨fun e => hne e.symm, h1⟩
        · simp only [List.take_succ_cons, List.drop_succ_cons, List.cons_append]
          rw [← h2]

theorem filter_ne_of_not_mem (c : Nat) (s : GoString) (h : c ∉ s) :
    s.filter (fun b => b != c) = s := by
  rw [List.filter_eq_self]
  intro b hb
  have : b ≠ c := fun e => h (e ▸ hb)
  simpa using this

theorem countLoop_single (c : Nat) :
    ∀ fuel (s : GoString), s.length ≤ fuel → countLoop [c] fuel s = s.count c := by
  intro fuel
  induction fuel with
  | zero =>
    intro s hs
    have : s = [] := List.length_eq_zero.mp (Nat.le_zero.mp hs)
    subst this
    rfl
  | succ fuel ih =>
    intro s hs
    rw [countLoop]
    cases hi : Index s [c] with
    | none =>
      have := Index_single_none c s hi
      simp only
      exact (List.count_eq_zero.mpr this).symm
    | some i =>
      obtain ⟨h1, h2⟩ := Index_single_some c s i hi
      simp only [List.length_singleton]
      have hlen : (s.drop (i + 1)).length ≤ fuel := by
        have hl := congrArg List.length h2
        simp only [List.length_append, List.length_cons] at hl
        omega
      rw [ih _ hlen]
      conv_rhs => rw [h2]
      rw [List.count_append, List.count_cons_self, List.count_eq_zero.mpr h1]
      omega

theorem replaceLoop_single (c : Nat) :
    ∀ n (s : GoString), s.count c ≤ n →
      replaceLoop [c] [] n s = s.filter (fun b => b != c) := by
  intro n
  induction n with
  | zero =>
    intro s hs
    have : c ∉ s := List.count_eq_zero.mp (Nat.le_zero.mp hs)
    rw [replaceLoop, filter_ne_of_not_mem c s this]
  | succ n ih =>
    intro s hs
    rw [replaceLoop]
    cases hi : Index s [c] with
    | none =>
      simp only
      rw [filter_ne_of_not_mem c s (Index_single_none c s hi)]
    | some j =>
      obtain ⟨h1, h2⟩ := Index_single_some c s j hi
      simp only [List.length_singleton, List.append_nil]
      have hcount : (s.drop (j + 1)).count c ≤ n := by
        have hc := congrArg (List.count c) h2
        rw [List.count_append, List.count_cons_self, List.count_eq_zero.mpr h1] at hc
        omega
      rw [ih _ hcount]
      conv_rhs => rw [h2]
      rw [List.filter_append, filter_ne_of_not_mem c _ h1]
      simp

/-- All newlines replaced by nothing: `strings.Replace(s, "\n", "", -1)` is
`s` without its newline bytes. -/
theorem Replace_newline (s : GoString) :
    Replace s (utf8 "\n") (utf8 "") (-1) = s.filter (fun b => b != 0x0A) := by
  have hold : utf8 "\n" = [0x0A] := by decide
  have hnew : utf8 "" = [] := by decide
  rw [hold, hnew]
  unfold Replace
  have hcnt : Count s [0x0A] = s.count 0x0A := by
    unfold Count
    rw [if_neg (by simp)]
    exact countLoop_single 0x0A s.length s (Nat.le_refl _)
  rw [if_neg (by simp)]
  simp only [hcnt]
  by_cases h0 : s.count 0x0A = 0
  · rw [if_pos h0, filter_ne_of_not_mem _ _ (List.count_eq_zero.mp h0)]
  · rw [if_neg h0, if_pos (Or.inl (by decide)), if_neg (by simp)]
    exact replaceLoop_single 0x0A _ s (Nat.le_refl _)

/-- Claim C8. The highlight line is the opening markup with the colour of the
style code, the highlight text without its newline bytes, and the closing
markup; the text written has no newline, is the highlight text with only
newlines left out (every other byte kept, in order, nothing put in), and
`"line1\nline2"` is written as `"line1line2"`. -/
theorem highlightLine_spec (a : SingleHighlightNote) :
    highlightLine a =
      utf8 "> <span style='background-color:" ++ styleToColor a.Style
        ++ utf8 ";color:black'>" ++ a.HightLight.filter (fun b => b != 0x0A)
        ++ utf8 "</span>" ∧
    0x0A ∉ a.HightLight.filter (fun b => b != 0x0A) ∧
    List.Sublist (a.HightLight.filter (fun b => b != 0x0A)) a.HightLight ∧
    (∀ b, b ≠ 0x0A →
      (a.HightLight.filter (fun b => b != 0x0A)).count b = a.HightLight.count b) ∧
    Replace (utf8 "line1\nline2") (utf8 "\n") (utf8 "") (-1) = utf8 "line1line2" ∧
    highlightLine ⟨utf8 "line1\nline2", ⟨utf8 "", false⟩, 3⟩ =
      utf8 "> <span style='background-color:#fde15c;color:black'>line1line2</span>" := by
  refine ⟨?_, ?_, List.filter_sublist _, ?_, by decide, by decide⟩
  · unfold highlightLine
    rw [Replace_newline]
  · intro h
    have := (List.mem_filter.mp h).2
    simp at this
  · intro b hb
    rw [List.count_filter]
    simpa using hb

/-- Claim C9. Without a note, one pass of the export loop prints the
highlight line and the separator and nothing else; with a note it prints,
between the two, one more text: a newline and the note without its newline
bytes. Both cases produce their output (the rendering has no failing path). -/
theorem exportLoopBody_spec (a : SingleHighlightNote) :
    (a.Note.Valid = false →
      exportLoopBody a = [highlightLine a, utf8 "---\n\n"] ∧
      exportLoopOutput a =
        highlightLine a ++ utf8 "\n" ++ utf8 "---\n\n\n") ∧
    (a.Note.Valid = true →
      exportLoopBody a =
        [highlightLine a,
         utf8 "\n" ++ a.Note.String.filter (fun b => b != 0x0A),
         utf8 "---\n\n"] ∧
      0x0A ∉ a.Note.String.filter (fun b => b != 0x0A) ∧
      exportLoopOutput a =
        highlightLine a ++ utf8 "\n"
          ++ (utf8 "\n" ++ a.Note.String.filter (fun b => b != 0x0A) ++ utf8 "\n")
          ++ utf8 "---\n\n\n") := by
  constructor
  · intro h
    have hr : exportLoopBody a = [highlightLine a, utf8 "---\n\n"] := by
      unfold exportLoopBody
      rw [h]
      rfl
    refine ⟨hr, ?_⟩
    unfold exportLoopOutput
    rw [hr]
    have : utf8 "---\n\n\n" = utf8 "---\n\n" ++ utf8 "\n" := by decide
    rw [this]
    simp [Println]
  · intro h
    have hr : exportLoopBody a =
        [highlightLine a, utf8 "\n" ++ a.Note.String.filter (fun b => b != 0x0A),
         utf8 "---\n\n"] := by
      unfold exportLoopBody
      rw [h]
      simp only [if_true]
      unfold noteLine
      rw [Replace_newline]
      rfl
    refine ⟨hr, ?_, ?_⟩
    · intro hm
      have := (List.mem_filter.mp hm).2
      simp at this
    · unfold exportLoopOutput
      rw [hr]
      have : utf8 "---\n\n\n" = utf8 "---\n\n" ++ utf8 "\n" := by decide
      rw [this]
      simp [Println]

/-- An annotation with the note `"no\nte"`: absent, the output is the
highlight line and the separator; present, the note `"note"` comes between
them. -/
theorem exportLoopBody_spec_witness :
    exportLoopOutput ⟨utf8 "hi\nthere", ⟨utf8 "no\nte", false⟩, 99⟩ =
      utf8 "> <span style='background-color:;color:black'>hithere</span>\n---\n\n\n" ∧
    exportLoopOutput ⟨utf8 "hi\nthere", ⟨utf8 "no\nte", true⟩, 3⟩ =
      utf8 ("> <span style='background-color:#fde15c;color:black'>hithere</span>\n"
        ++ "\nnote\n---\n\n\n") :=
  ⟨((exportLoopBody_spec ⟨utf8 "hi\nthere", ⟨utf8 "no\nte", false⟩, 99⟩).1 rfl).2.trans
      (by decide),
   ((exportLoopBody_spec ⟨utf8 "hi\nthere", ⟨utf8 "no\nte", true⟩, 3⟩).2 rfl).2.2.trans
      (by decide)⟩

end IBooksNotesExporter
